import Mathlib

/-!
Verification of the adaptive batch execution engine of the image generation
server (`main.py`).  The scheduler `do_diffusion` splits a requested number of
output variants into sub-batches, shrinks the batch size on resource
exhaustion (`RuntimeError`), reports progress fractions over a stateful
connection, and maps every outcome onto a termination protocol.  The Lean
definitions below are a shallow embedding of that control logic; images are an
abstract type, and the external generation operation is an oracle mapping a
prompt count and a per-candidate invocation index to a result or a
resource-exhaustion signal.
-/

namespace ImageAiUtils

/-- Outcome of one invocation of the external generation operation
(`diffusion_method` in `do_diffusion`): an ordered list of images, or a
resource-exhaustion signal (a `RuntimeError` in the source). -/
inductive DiffOutcome (α : Type) where
  | ok : List α → DiffOutcome α
  | oom : DiffOutcome α
  deriving DecidableEq

/-- The batch plan computed at the top of each candidate iteration of
`do_diffusion` (`main.py` lines 108-110):
`num_batches = request.num_variants // batch_size` and
`last_batch_size = request.num_variants - batch_size * num_batches`. -/
def batchPlan (numVariants batchSize : ℕ) : ℕ × ℕ :=
  (numVariants / batchSize, numVariants - batchSize * (numVariants / batchSize))

/-- The inner `for i in range(num_batches)` loop of `do_diffusion`
(`main.py` lines 113-132): run `count` invocations of the generation oracle
`gen` with prompt count `b`, the first one carrying invocation index `start`,
extending the image list in submission order; the first resource-exhaustion
signal aborts the candidate (`none`). -/
def runBatchesFrom (gen : ℕ → ℕ → DiffOutcome α) (b : ℕ) : ℕ → ℕ → Option (List α)
  | _, 0 => some []
  | start, count + 1 =>
      match gen b start with
      | .oom => none
      | .ok imgs => (runBatchesFrom gen b (start + 1) count).map (imgs ++ ·)

/-- The body of one candidate iteration of `do_diffusion` (`main.py` lines
107-152): compute the batch plan, run the full batches, then, if
`last_batch_size` is nonzero, one remainder invocation with prompt count
`last_batch_size` and invocation index `num_batches`; the resulting images are
the full batches' images in submission order followed by the remainder
batch's images. -/
def runCandidate (gen : ℕ → ℕ → DiffOutcome α) (numVariants b : ℕ) : Option (List α) :=
  let numBatches := (batchPlan numVariants b).1
  let lastBatchSize := (batchPlan numVariants b).2
  match runBatchesFrom gen b 0 numBatches with
  | none => none
  | some imgs =>
      if lastBatchSize ≠ 0 then
        match gen lastBatchSize numBatches with
        | .oom => none
        | .ok lastImgs => some (imgs ++ lastImgs)
      else some imgs

/-- The two domain errors `do_diffusion` can raise: `BatchSizeIsTooLargeException`
(carrying the failing candidate batch size) and `AspectRatioTooWideException`. -/
inductive DiffError where
  | batchSizeIsTooLarge (batchSize : ℕ)
  | aspectRatioTooWide
  deriving DecidableEq

/-- The candidate search loop `for batch_size in range(start, 0, -1)` of
`do_diffusion` (`main.py` lines 106-159), instrumented with the list of
candidate batch sizes actually tried.  A successful candidate `break`s with
its images; a resource-exhaustion signal continues with the next smaller
candidate when `try_smaller_batch_on_fail` is set and otherwise raises
`BatchSizeIsTooLargeException batch_size`; the `for`/`else` clause raises
`AspectRatioTooWideException` when the loop finishes without `break`. -/
def doDiffusionTraceFrom (gen : ℕ → ℕ → DiffOutcome α) (numVariants : ℕ)
    (trySmaller : Bool) : ℕ → List ℕ × Except DiffError (List α)
  | 0 => ([], .error .aspectRatioTooWide)
  | b + 1 =>
      match runCandidate gen numVariants (b + 1) with
      | some imgs => ([b + 1], .ok imgs)
      | none =>
          if trySmaller then
            let r := doDiffusionTraceFrom gen numVariants trySmaller b
            ((b + 1) :: r.1, r.2)
          else ([b + 1], .error (.batchSizeIsTooLarge (b + 1)))

/-- `do_diffusion` (`main.py` lines 93-161): the candidate search starts at
`min(request.batch_size, request.num_variants)` and returns the image array of
the first successful candidate or a domain error. -/
def do_diffusion (gen : ℕ → ℕ → DiffOutcome α) (numVariants batchSize : ℕ)
    (trySmaller : Bool) : Except DiffError (List α) :=
  (doDiffusionTraceFrom gen numVariants trySmaller (min batchSize numVariants)).2

/-- The sequence of candidate batch sizes tried by `do_diffusion`, in order. -/
def candidatesTried (gen : ℕ → ℕ → DiffOutcome α) (numVariants batchSize : ℕ)
    (trySmaller : Bool) : List ℕ :=
  (doDiffusionTraceFrom gen numVariants trySmaller (min batchSize numVariants)).1

end ImageAiUtils

namespace ImageAiUtils

/-- Every candidate batch size in the trace starting at `b` lies in `[1, b]`. -/
theorem mem_traceFrom {α : Type} (gen : ℕ → ℕ → DiffOutcome α) (numVariants : ℕ)
    (trySmaller : Bool) :
    ∀ b, ∀ x ∈ (doDiffusionTraceFrom gen numVariants trySmaller b).1, 1 ≤ x ∧ x ≤ b := by
  intro b
  induction b with
  | zero => intro x hx; simp [doDiffusionTraceFrom] at hx
  | succ b ih =>
      intro x hx
      unfold doDiffusionTraceFrom at hx
      cases h : runCandidate gen numVariants (b + 1) with
      | some imgs =>
          rw [h] at hx
          simp at hx
          omega
      | none =>
          rw [h] at hx
          cases hts : trySmaller with
          | true =>
              simp [hts] at hx
              rcases hx with rfl | hx
              · omega
              · have := ih x (by rw [hts]; exact hx)
                omega
          | false =>
              simp [hts] at hx
              omega

/-- C2: for every `num_variants = n ≥ 1` and candidate batch size `b` with
`1 ≤ b ≤ n`, the batch plan satisfies `num_full_batches = n / b`,
`remainder_size = n - b * num_full_batches`, hence
`num_full_batches * b + remainder_size = n` and `remainder_size < b`. -/
theorem batchPlan_correct (n b : ℕ) (hn : 1 ≤ n) (hb : 1 ≤ b) (hbn : b ≤ n) :
    (batchPlan n b).1 = n / b ∧
    (batchPlan n b).2 = n - b * (n / b) ∧
    (batchPlan n b).1 * b + (batchPlan n b).2 = n ∧
    (batchPlan n b).2 < b := by
  refine ⟨rfl, rfl, ?_, ?_⟩
  · have h := Nat.div_add_mod n b
    have hle : b * (n / b) ≤ n := Nat.mul_div_le n b
    simp only [batchPlan]
    rw [Nat.mul_comm]
    omega
  · have h := Nat.div_add_mod n b
    have hmod : n % b < b := Nat.mod_lt n hb
    simp only [batchPlan]
    omega

/-- Witness for C2 at `n = 10`, `b = 4`: two full batches and a remainder of 2. -/
theorem batchPlan_correct_witness :
    (batchPlan 10 4).1 = 10 / 4 ∧
    (batchPlan 10 4).2 = 10 - 4 * (10 / 4) ∧
    (batchPlan 10 4).1 * 4 + (batchPlan 10 4).2 = 10 ∧
    (batchPlan 10 4).2 < 4 :=
  batchPlan_correct 10 4 (by decide) (by decide) (by decide)

/-- If every candidate strictly above `b` signals resource exhaustion and `b`
itself succeeds with `imgs`, the search started at `s ≥ b` walks
`s, s - 1, …, b` and stops at `b` with `imgs` (provided retrying is enabled,
or `b` is already the starting candidate). -/
theorem traceFrom_first_success {α : Type} (gen : ℕ → ℕ → DiffOutcome α) (n : ℕ)
    (ts : Bool) (b : ℕ) (imgs : List α) (hb : 1 ≤ b)
    (hsucc : runCandidate gen n b = some imgs) :
    ∀ s, b ≤ s →
      (∀ c ∈ Finset.Icc (b + 1) s, runCandidate gen n c = none) →
      (ts = true ∨ b = s) →
      doDiffusionTraceFrom gen n ts s =
        ((List.range' b (s - b + 1)).reverse, Except.ok imgs) := by
  intro s
  induction s with
  | zero => intro hbs _ _; exact absurd hbs (by omega)
  | succ s ih =>
      intro hbs hfail hflag
      by_cases hcase : b = s + 1
      · subst hcase
        unfold doDiffusionTraceFrom
        rw [hsucc]
        simp
      · have hbs' : b ≤ s := by omega
        have hfs : runCandidate gen n (s + 1) = none := by
          apply hfail
          simp only [Finset.mem_Icc]
          omega
        have hts : ts = true := by
          rcases hflag with h | h
          · exact h
          · exact absurd h hcase
        subst hts
        have ihe := ih hbs' (fun c hc => hfail c (by
          simp only [Finset.mem_Icc] at hc ⊢
          omega)) (Or.inl rfl)
        have hrange : s + 1 - b + 1 = (s - b + 1) + 1 := by omega
        have hsb : b + (s - b + 1) = s + 1 := by omega
        unfold doDiffusionTraceFrom
        rw [hfs]
        simp only [ihe]
        conv_rhs => rw [hrange, List.range'_1_concat, hsb]
        simp

/-- C1: for a request with `num_variants ≥ 1` and `batch_size ≥ 1`, the
scheduler tries candidate batch sizes from `start = min(batch_size,
num_variants)` downward in steps of one, stopping at the first candidate `b`
whose every planned invocation completes and returning that candidate's images
as the result array (the retry flag only matters when the start candidate
itself fails). -/
theorem do_diffusion_first_success {α : Type} (gen : ℕ → ℕ → DiffOutcome α)
    (n bs : ℕ) (ts : Bool) (b : ℕ) (imgs : List α)
    (hn : 1 ≤ n) (hbs : 1 ≤ bs) (hb : 1 ≤ b) (hble : b ≤ min bs n)
    (hfail : ∀ c ∈ Finset.Icc (b + 1) (min bs n), runCandidate gen n c = none)
    (hsucc : runCandidate gen n b = some imgs)
    (hflag : ts = true ∨ b = min bs n) :
    do_diffusion gen n bs ts = Except.ok imgs ∧
    candidatesTried gen n bs ts = (List.range' b (min bs n - b + 1)).reverse := by
  have h := traceFrom_first_success gen n ts b imgs hb hsucc (min bs n) hble hfail hflag
  constructor
  · unfold do_diffusion
    rw [h]
  · unfold candidatesTried
    rw [h]

/-- Generation oracle for the C1 witness: prompt counts up to 2 succeed with
that many copies of the image `37`, larger ones exhaust the device. -/
def genWitness1 : ℕ → ℕ → DiffOutcome ℕ :=
  fun p _ => if p ≤ 2 then .ok (List.replicate p 37) else .oom

/-- Witness for C1: `num_variants = 5`, `batch_size = 3`, retrying enabled;
candidate 3 fails, candidate 2 succeeds, so the trace is `[3, 2]` and the
result is five images. -/
theorem do_diffusion_first_success_witness :
    do_diffusion genWitness1 5 3 true = Except.ok [37, 37, 37, 37, 37] ∧
    candidatesTried genWitness1 5 3 true = (List.range' 2 (min 3 5 - 2 + 1)).reverse :=
  do_diffusion_first_success genWitness1 5 3 true 2 [37, 37, 37, 37, 37]
    (by decide) (by decide) (by decide) (by decide) (by decide) (by decide)
    (Or.inl rfl)

/-- C3: with `try_smaller_batch_on_fail = false`, a resource-exhaustion signal
during the first (clamped) candidate stops the search immediately with
`BatchSizeIsTooLargeException` carrying `min(batch_size, num_variants)`, and no
further candidate batch sizes are tried. -/
theorem do_diffusion_no_retry {α : Type} (gen : ℕ → ℕ → DiffOutcome α)
    (n bs : ℕ) (hn : 1 ≤ n) (hbs : 1 ≤ bs)
    (hfail : runCandidate gen n (min bs n) = none) :
    do_diffusion gen n bs false =
      Except.error (DiffError.batchSizeIsTooLarge (min bs n)) ∧
    candidatesTried gen n bs false = [min bs n] := by
  have h1 : 1 ≤ min bs n := le_min hbs hn
  obtain ⟨m, hm⟩ : ∃ m, min bs n = m + 1 := ⟨min bs n - 1, by omega⟩
  rw [hm] at hfail ⊢
  unfold do_diffusion candidatesTried
  rw [hm]
  unfold doDiffusionTraceFrom
  rw [hfail]
  simp

/-- Generation oracle for the C3 witness: every invocation exhausts the device. -/
def genWitness3 : ℕ → ℕ → DiffOutcome ℕ := fun _ _ => .oom

/-- Witness for C3: `num_variants = 5`, `batch_size = 5`, no retrying; only
candidate 5 is tried and the bounded-batch error reports size 5. -/
theorem do_diffusion_no_retry_witness :
    do_diffusion genWitness3 5 5 false =
      Except.error (DiffError.batchSizeIsTooLarge (min 5 5)) ∧
    candidatesTried genWitness3 5 5 false = [min 5 5] :=
  do_diffusion_no_retry genWitness3 5 5 (by decide) (by decide) (by decide)

/-- When retrying is enabled and every candidate in `[1, s]` signals resource
exhaustion, the search from `s` ends in `AspectRatioTooWideException`. -/
theorem traceFrom_all_fail {α : Type} (gen : ℕ → ℕ → DiffOutcome α) (n : ℕ) :
    ∀ s, (∀ c ∈ Finset.Icc 1 s, runCandidate gen n c = none) →
      (doDiffusionTraceFrom gen n true s).2 =
        Except.error DiffError.aspectRatioTooWide := by
  intro s
  induction s with
  | zero => intro _; rfl
  | succ s ih =>
      intro hfail
      have hfs : runCandidate gen n (s + 1) = none := by
        apply hfail
        simp only [Finset.mem_Icc]
        omega
      unfold doDiffusionTraceFrom
      rw [hfs]
      simp only [if_pos rfl]
      exact ih (fun c hc => hfail c (by
        simp only [Finset.mem_Icc] at hc ⊢
        omega))

/-- C4: with `try_smaller_batch_on_fail = true`, if every candidate batch size
from the clamped start down to 1 signals resource exhaustion the scheduler
fails with `AspectRatioTooWideException`; and with
`try_smaller_batch_on_fail = false` that error is unreachable for every
oracle. -/
theorem do_diffusion_infeasible {α : Type} (gen gen' : ℕ → ℕ → DiffOutcome α)
    (n bs : ℕ) (hn : 1 ≤ n) (hbs : 1 ≤ bs)
    (hfail : ∀ c ∈ Finset.Icc 1 (min bs n), runCandidate gen n c = none) :
    do_diffusion gen n bs true = Except.error DiffError.aspectRatioTooWide ∧
    do_diffusion gen' n bs false ≠ Except.error DiffError.aspectRatioTooWide := by
  constructor
  · exact traceFrom_all_fail gen n (min bs n) hfail
  · have h1 : 1 ≤ min bs n := le_min hbs hn
    obtain ⟨m, hm⟩ : ∃ m, min bs n = m + 1 := ⟨min bs n - 1, by omega⟩
    unfold do_diffusion
    rw [hm]
    unfold doDiffusionTraceFrom
    cases h : runCandidate gen' n (m + 1) <;> simp

/-- Generation oracle for the C4 witness (retry branch): always exhausts. -/
def genWitness4 : ℕ → ℕ → DiffOutcome ℕ := fun _ _ => .oom

/-- Generation oracle for the C4 witness (no-retry branch): always exhausts. -/
def genWitness4b : ℕ → ℕ → DiffOutcome ℕ := fun _ _ => .oom

/-- Witness for C4: `num_variants = 5`, `batch_size = 5`, all candidates
`5, 4, 3, 2, 1` exhaust; retrying yields the infeasible-configuration error,
while with retrying disabled that error cannot occur. -/
theorem do_diffusion_infeasible_witness :
    do_diffusion genWitness4 5 5 true = Except.error DiffError.aspectRatioTooWide ∧
    do_diffusion genWitness4b 5 5 false ≠ Except.error DiffError.aspectRatioTooWide :=
  do_diffusion_infeasible genWitness4 genWitness4b 5 5 (by decide) (by decide) (by decide)

/-- If invocations `start, start + 1, …, start + count - 1` all succeed with
the images `Ls _`, the full-batch loop collects them in submission order. -/
theorem runBatchesFrom_ok {α : Type} (gen : ℕ → ℕ → DiffOutcome α) (b : ℕ)
    (Ls : ℕ → List α) :
    ∀ count start, (∀ k, k < count → gen b (start + k) = .ok (Ls (start + k))) →
      runBatchesFrom gen b start count =
        some (((List.range count).map (fun k => Ls (start + k))).flatten) := by
  intro count
  induction count with
  | zero => intro start _; simp [runBatchesFrom]
  | succ count ih =>
      intro start hok
      have h0 : gen b start = .ok (Ls start) := by
        have := hok 0 (by omega)
        simpa using this
      have hrest := ih (start + 1) (fun k hk => by
        have := hok (k + 1) (by omega)
        rw [show start + (k + 1) = start + 1 + k by omega] at this
        exact this)
      unfold runBatchesFrom
      rw [h0, hrest]
      have hmaps : List.map (fun k => Ls (start + k)) (List.range (count + 1))
          = Ls start :: List.map (fun k => Ls (start + 1 + k)) (List.range count) := by
        rw [List.range_succ_eq_map, List.map_cons, List.map_map]
        simp only [Nat.add_zero]
        congr 1
        apply List.map_congr_left
        intro k _
        simp only [Function.comp_apply]
        congr 1
        omega
      rw [hmaps]
      simp

/-- A flat list whose chunks all have length `b` has length `count * b`. -/
theorem flatten_const_length {α : Type} (b : ℕ) :
    ∀ L : List (List α), (∀ x ∈ L, x.length = b) → L.flatten.length = L.length * b := by
  intro L
  induction L with
  | nil => intro _; simp
  | cons x L ih =>
      intro h
      have hx : x.length = b := h x (by simp)
      have hL := ih (fun y hy => h y (by simp [hy]))
      simp [hx, hL, Nat.succ_mul]
      omega

/-- C6: if every full-batch invocation `k < num_batches` returns the `b`
images `Ls k` and the remainder invocation (when `last_batch_size ≠ 0`)
returns the `last_batch_size` images `R`, the candidate returns the
concatenation of the full batches' images in submission order followed by the
remainder batch's images, and its length is `num_variants`. -/
theorem runCandidate_result {α : Type} (gen : ℕ → ℕ → DiffOutcome α)
    (n b : ℕ) (Ls : ℕ → List α) (R : List α)
    (hn : 1 ≤ n) (hb : 1 ≤ b) (hbn : b ≤ n)
    (hfull : ∀ k ∈ Finset.range (batchPlan n b).1, gen b k = .ok (Ls k))
    (hlen : ∀ k ∈ Finset.range (batchPlan n b).1, (Ls k).length = b)
    (hrem : (batchPlan n b).2 ≠ 0 → gen (batchPlan n b).2 (batchPlan n b).1 = .ok R)
    (hremlen : (batchPlan n b).2 ≠ 0 → R.length = (batchPlan n b).2) :
    runCandidate gen n b =
      some (((List.range (batchPlan n b).1).map Ls).flatten ++
        (if (batchPlan n b).2 ≠ 0 then R else [])) ∧
    (((List.range (batchPlan n b).1).map Ls).flatten ++
        (if (batchPlan n b).2 ≠ 0 then R else [])).length = n := by
  have hbatches := runBatchesFrom_ok gen b Ls (batchPlan n b).1 0 (fun k hk => by
    have := hfull k (Finset.mem_range.mpr hk)
    simpa using this)
  simp only [Nat.zero_add] at hbatches
  have hflatlen : ((List.range (batchPlan n b).1).map Ls).flatten.length =
      (batchPlan n b).1 * b := by
    have := flatten_const_length b ((List.range (batchPlan n b).1).map Ls) (by
      intro x hx
      rw [List.mem_map] at hx
      obtain ⟨k, hk, rfl⟩ := hx
      exact hlen k (Finset.mem_range.mpr (List.mem_range.mp hk)))
    simpa using this
  have harith : (batchPlan n b).1 * b + (batchPlan n b).2 = n := by
    have h := Nat.div_add_mod n b
    have hle : b * (n / b) ≤ n := Nat.mul_div_le n b
    simp only [batchPlan]
    rw [Nat.mul_comm]
    omega
  constructor
  · by_cases hcase : (batchPlan n b).2 = 0
    · simp [runCandidate, hbatches, hcase]
    · simp [runCandidate, hbatches, hrem hcase, hcase]
  · by_cases hcase : (batchPlan n b).2 = 0
    · rw [if_neg (not_not_intro hcase)]
      simp only [List.length_append, List.length_nil, hflatlen]
      omega
    · rw [if_pos hcase, List.length_append, hflatlen, hremlen hcase]
      omega

/-- Generation oracle for the C6 witness: prompt count `p`, invocation `k`
yields images `10 * k, …, 10 * k + p - 1`, so ordering is observable. -/
def genWitness6 : ℕ → ℕ → DiffOutcome ℕ :=
  fun p k => .ok ((List.range p).map (fun j => 10 * k + j))

/-- Witness for C6: `num_variants = 5`, candidate `b = 2`; two full batches
and a remainder of one image, concatenated in submission order with total
length 5. -/
theorem runCandidate_result_witness :
    runCandidate genWitness6 5 2 =
      some (((List.range (batchPlan 5 2).1).map (fun k => [10 * k, 10 * k + 1])).flatten ++
        (if (batchPlan 5 2).2 ≠ 0 then [20] else [])) ∧
    (((List.range (batchPlan 5 2).1).map (fun k => [10 * k, 10 * k + 1])).flatten ++
        (if (batchPlan 5 2).2 ≠ 0 then [20] else [])).length = 5 :=
  runCandidate_result genWitness6 5 2 (fun k => [10 * k, 10 * k + 1]) [20]
    (by decide) (by decide) (by decide) (by decide) (by decide) (by decide) (by decide)

/-- The denominator used by every progress computation of `do_diffusion`
(`main.py` lines 116-118 and 137): `total_steps = num_batches *
total_batch_steps`, plus one more `total_batch_steps` when `last_batch_size`
is nonzero. -/
def totalSteps (numBatches lastBatchSize totalBatchSteps : ℕ) : ℕ :=
  numBatches * totalBatchSteps + (if lastBatchSize ≠ 0 then totalBatchSteps else 0)

/-- C10: every candidate batch size `b` tried by the scheduler satisfies
`1 ≤ b ≤ num_variants`, so `num_variants / b ≥ 1` and the progress denominator
`total_steps` is strictly positive — the progress division never divides by
zero. -/
theorem totalSteps_pos {α : Type} (gen : ℕ → ℕ → DiffOutcome α)
    (n bs T : ℕ) (ts : Bool) (hn : 1 ≤ n) (hbs : 1 ≤ bs) (hT : 1 ≤ T) :
    ∀ b ∈ candidatesTried gen n bs ts, 1 ≤ b ∧ b ≤ n ∧
      1 ≤ (batchPlan n b).1 ∧
      0 < totalSteps (batchPlan n b).1 (batchPlan n b).2 T := by
  intro b hbmem
  have hmem := mem_traceFrom gen n ts (min bs n) b hbmem
  have hb1 : 1 ≤ b := hmem.1
  have hbn : b ≤ n := le_trans hmem.2 (min_le_right bs n)
  have hdiv : 1 ≤ (batchPlan n b).1 := by
    simp only [batchPlan]
    exact (Nat.one_le_div_iff hb1).mpr hbn
  refine ⟨hb1, hbn, hdiv, ?_⟩
  have hmul : 1 * T ≤ (batchPlan n b).1 * T := Nat.mul_le_mul_right T hdiv
  unfold totalSteps
  split <;> omega

/-- Generation oracle for the C10 witness. -/
def genWitness10 : ℕ → ℕ → DiffOutcome ℕ :=
  fun p _ => if p ≤ 2 then .ok (List.replicate p 0) else .oom

/-- Witness for C10: `num_variants = 5`, `batch_size = 3`,
`num_inference_steps = 2`; the tried candidate `b = 2` (the second candidate,
after 3 exhausts) has at least one full batch and a positive progress
denominator. -/
theorem totalSteps_pos_witness :
    1 ≤ 2 ∧ 2 ≤ 5 ∧ 1 ≤ (batchPlan 5 2).1 ∧
      0 < totalSteps (batchPlan 5 2).1 (batchPlan 5 2).2 2 :=
  totalSteps_pos genWitness10 5 3 2 true (by decide) (by decide) (by decide) 2
    (by decide)

/-- The progress fraction sent by the full-batch callback of `do_diffusion`
(`main.py` lines 114-122): `current_step = i * total_batch_steps + batch_step`
divided by `total_steps`. -/
def fullBatchProgress (numBatches lastBatchSize i batchStep totalBatchSteps : ℕ) : ℚ :=
  ((i * totalBatchSteps + batchStep : ℕ) : ℚ) /
    (totalSteps numBatches lastBatchSize totalBatchSteps : ℚ)

/-- The progress fraction sent by the remainder-batch callback of
`do_diffusion` (`main.py` lines 135-141): `current_step = num_batches *
total_batch_steps + batch_step` divided by
`(num_batches + 1) * total_batch_steps`. -/
def remainderBatchProgress (numBatches batchStep totalBatchSteps : ℕ) : ℚ :=
  ((numBatches * totalBatchSteps + batchStep : ℕ) : ℚ) /
    (((numBatches + 1) * totalBatchSteps : ℕ) : ℚ)

/-- Modelled from the spec: the external generation operation
(`diffusion_method`, implemented by the universal pipeline module, which is
not among the sources here) fires the progress callback once per inference
iteration (§4.5), with `batch_step` the number of completed steps before the
current iteration — `0, 1, …, num_inference_steps - 1` — and
`total_batch_steps = num_inference_steps = T`.  `fullBatchEvents … i` is the
list of progress fractions emitted during the first `i` full batches. -/
def fullBatchEvents (numBatches lastBatchSize T : ℕ) : ℕ → List ℚ
  | 0 => []
  | i + 1 => fullBatchEvents numBatches lastBatchSize T i ++
      (List.range T).map (fun s => fullBatchProgress numBatches lastBatchSize i s T)

/-- Modelled from the spec: the full sequence of progress fractions emitted
during one successful candidate attempt — all full batches in submission
order, then the remainder batch when `lastBatchSize ≠ 0` (§4.5, firing
convention as in `fullBatchEvents`). -/
def progressSeq (numBatches lastBatchSize T : ℕ) : List ℚ :=
  fullBatchEvents numBatches lastBatchSize T numBatches ++
    (if lastBatchSize ≠ 0 then
      (List.range T).map (fun s => remainderBatchProgress numBatches s T)
    else [])

/-- The events of the first `i` full batches have numerators `0, …, i*T - 1`
over the constant denominator `total_steps`. -/
theorem fullBatchEvents_eq (numBatches lastBatchSize T : ℕ) :
    ∀ i, fullBatchEvents numBatches lastBatchSize T i =
      (List.range (i * T)).map
        (fun k : ℕ => (k : ℚ) / (totalSteps numBatches lastBatchSize T : ℚ)) := by
  intro i
  induction i with
  | zero => simp [fullBatchEvents]
  | succ i ih =>
      unfold fullBatchEvents
      rw [ih, show (i + 1) * T = i * T + T from by ring, List.range_add,
        List.map_append]
      congr 1
      rw [List.map_map]
      apply List.map_congr_left
      intro s _
      simp only [Function.comp_apply, fullBatchProgress]

/-- The whole emitted sequence has numerators `0, …, total_steps - 1` over the
constant denominator `total_steps`. -/
theorem progressSeq_eq (numBatches lastBatchSize T : ℕ) :
    progressSeq numBatches lastBatchSize T =
      (List.range (totalSteps numBatches lastBatchSize T)).map
        (fun k : ℕ => (k : ℚ) / (totalSteps numBatches lastBatchSize T : ℚ)) := by
  by_cases h : lastBatchSize = 0
  · have htot : totalSteps numBatches lastBatchSize T = numBatches * T := by
      unfold totalSteps
      rw [if_neg (not_not_intro h)]
      omega
    unfold progressSeq
    rw [if_neg (not_not_intro h), fullBatchEvents_eq, htot]
    simp
  · have htot : totalSteps numBatches lastBatchSize T = numBatches * T + T := by
      unfold totalSteps
      rw [if_pos h]
    unfold progressSeq
    rw [if_pos h, fullBatchEvents_eq, htot, List.range_add, List.map_append]
    congr 1
    rw [List.map_map]
    apply List.map_congr_left
    intro s _
    simp only [Function.comp_apply, remainderBatchProgress]
    congr 1
    push_cast
    ring

/-- C5: for a candidate with plan `batchPlan n b` (where `1 ≤ b ≤ n`) and
`num_inference_steps = T ≥ 1`, the sequence of emitted progress fractions is
non-decreasing and every emitted value lies in `[0, 1)` — a value equal to
exactly 1 is never emitted by a progress callback. -/
theorem progress_monotone_bounded (n b T : ℕ)
    (hb : 1 ≤ b) (hbn : b ≤ n) (hT : 1 ≤ T) :
    List.Pairwise (· ≤ ·) (progressSeq (batchPlan n b).1 (batchPlan n b).2 T) ∧
    ∀ p ∈ progressSeq (batchPlan n b).1 (batchPlan n b).2 T, 0 ≤ p ∧ p < 1 := by
  have hnb : 1 ≤ (batchPlan n b).1 := by
    simp only [batchPlan]
    exact (Nat.one_le_div_iff hb).mpr hbn
  have htotpos : 0 < totalSteps (batchPlan n b).1 (batchPlan n b).2 T := by
    have hmul : 1 * T ≤ (batchPlan n b).1 * T := Nat.mul_le_mul_right T hnb
    unfold totalSteps
    split <;> omega
  have htotQ : (0 : ℚ) < (totalSteps (batchPlan n b).1 (batchPlan n b).2 T : ℚ) :=
    Nat.cast_pos.mpr htotpos
  rw [progressSeq_eq]
  constructor
  · rw [List.pairwise_map]
    exact (List.pairwise_le_range _).imp
      (fun hab => (div_le_div_iff_of_pos_right htotQ).mpr (Nat.cast_le.mpr hab))
  · intro p hp
    rw [List.mem_map] at hp
    obtain ⟨k, hk, rfl⟩ := hp
    have hklt : k < totalSteps (batchPlan n b).1 (batchPlan n b).2 T :=
      List.mem_range.mp hk
    constructor
    · exact div_nonneg (Nat.cast_nonneg k) (le_of_lt htotQ)
    · rw [div_lt_one htotQ]
      exact_mod_cast hklt

/-- Witness for C5: `num_variants = 5`, candidate `b = 2`,
`num_inference_steps = 1`; the emitted fractions are `0/3, 1/3, 2/3`. -/
theorem progress_monotone_bounded_witness :
    List.Pairwise (· ≤ ·) (progressSeq (batchPlan 5 2).1 (batchPlan 5 2).2 1) ∧
    ∀ p ∈ progressSeq (batchPlan 5 2).1 (batchPlan 5 2).2 1, 0 ≤ p ∧ p < 1 :=
  progress_monotone_bounded 5 2 1 (by decide) (by decide) (by decide)

/-- The configured credential (`settings.USERNAME` and `settings.PASSWORD`). -/
structure Settings where
  USERNAME : String
  PASSWORD : String

/-- The first inbound message of a streaming connection as read by
`authorize_web_socket`: a JSON object whose `username` / `password` fields may
be missing (`credentials.get` yields `None` then). -/
structure Credentials where
  username : Option String
  password : Option String

/-- `authorize_web_socket` (`main.py` lines 40-47): returns `True` only when
both fields are present and match the configured credential; otherwise the
socket is closed with `WS_1008_POLICY_VIOLATION` and reason
`'Authorization error'` and `False` is returned. -/
def authorize_web_socket (s : Settings) (c : Credentials) : Bool :=
  if c.username ≠ some s.USERNAME ∨ c.password ≠ some s.PASSWORD then
    false
  else
    true

/-- An observable outbound action on the websocket. -/
inductive WsEvent where
  | close (code : ℕ) (reason : String)
  | send (payload : String)
  deriving DecidableEq

/-- `status.WS_1008_POLICY_VIOLATION`. -/
def WS_1008_POLICY_VIOLATION : ℕ := 1008

/-- The wrapper produced by the `websocket_handler` decorator (`main.py`
lines 50-72), restricted to its authentication path: after `accept`, the first
inbound message is checked by `authorize_web_socket`; on failure the wrapper
returns immediately after the close, so the wrapped endpoint handler — whose
first action is request decoding — contributes no events. -/
def websocket_wrapper (s : Settings) (c : Credentials)
    (handlerEvents : List WsEvent) : List WsEvent :=
  if authorize_web_socket s c then
    handlerEvents
  else
    [WsEvent.close WS_1008_POLICY_VIOLATION "Authorization error"]

/-- C7: when the first message's username or password is missing or does not
match the configured credential, the connection is closed with the
policy-violation code 1008 and the fixed reason `'Authorization error'`, and
the endpoint handler (hence request decoding) is never reached — for every
streaming endpoint, since every one is wrapped by `websocket_wrapper`. -/
theorem authorize_rejects_bad_credentials (s : Settings) (c : Credentials)
    (handlerEvents : List WsEvent)
    (hbad : c.username ≠ some s.USERNAME ∨ c.password ≠ some s.PASSWORD) :
    authorize_web_socket s c = false ∧
    websocket_wrapper s c handlerEvents =
      [WsEvent.close WS_1008_POLICY_VIOLATION "Authorization error"] := by
  have h : authorize_web_socket s c = false := by
    unfold authorize_web_socket
    rw [if_pos hbad]
  refine ⟨h, ?_⟩
  unfold websocket_wrapper
  rw [h]
  simp

/-- Witness for C7: wrong password with a handler that would have sent a
result; the connection is closed with 1008 and the fixed reason instead. -/
theorem authorize_rejects_bad_credentials_witness :
    authorize_web_socket ⟨"admin", "hunter2"⟩ ⟨some "admin", some "wrong"⟩ = false ∧
    websocket_wrapper ⟨"admin", "hunter2"⟩ ⟨some "admin", some "wrong"⟩
        [WsEvent.send "FINISHED"] =
      [WsEvent.close WS_1008_POLICY_VIOLATION "Authorization error"] :=
  authorize_rejects_bad_credentials ⟨"admin", "hunter2"⟩ ⟨some "admin", some "wrong"⟩
    [WsEvent.send "FINISHED"] (by decide)

/-- The alpha-derived inpainting mask (`main.py` lines 232-236):
`1 - preprocess_mask(source_image.getchannel('A'))`, one value per pixel of
the already normalized alpha channel. -/
def alphaMaskFromChannel (alphaChannel : List ℚ) : List ℚ :=
  alphaChannel.map (fun x => 1 - x)

/-- The `if m is not None and not m.any(): m = None` normalization applied to
the preprocessed explicit mask and to the alpha mask (`main.py` lines 229-230
and 238-239): an all-zero mask is discarded. -/
def dropIfEmpty (m : Option (List ℚ)) : Option (List ℚ) :=
  match m with
  | none => none
  | some v => if v.all (fun x => decide (x = 0)) then none else some v

/-- `torch.max(preprocessed_mask, preprocessed_alpha)` (`main.py` line 243):
element-wise maximum. -/
def elementwiseMax (a b : List ℚ) : List ℚ :=
  List.zipWith max a b

/-- The effective inpainting mask (`main.py` lines 219-245): normalize the
explicit mask and the alpha mask, then — when the alpha mask is present —
take the element-wise maximum with the explicit mask, or the alpha mask alone
when no explicit mask remains. -/
def effectiveInpaintingMask (mask alpha : Option (List ℚ)) : Option (List ℚ) :=
  let preprocessedMask := dropIfEmpty mask
  let preprocessedAlpha := dropIfEmpty alpha
  match preprocessedAlpha with
  | none => preprocessedMask
  | some a =>
      match preprocessedMask with
      | some m => some (elementwiseMax m a)
      | none => some a

/-- Pixel values of a possibly absent mask: `None` masks nothing (all-zero). -/
def maskDenote (len : ℕ) : Option (List ℚ) → List ℚ
  | none => List.replicate len 0
  | some v => v

/-- Element-wise max with an all-zero right operand of equal length is the
identity on lists of non-negative values. -/
theorem zipWith_max_zero_right :
    ∀ (m z : List ℚ), m.length = z.length → (∀ x ∈ z, x = 0) →
      (∀ x ∈ m, 0 ≤ x) → List.zipWith max m z = m := by
  intro m
  induction m with
  | nil => intro z _ _ _; simp
  | cons a m ih =>
      intro z hlen hz hm
      cases z with
      | nil => simp at hlen
      | cons c z =>
          have hc : c = 0 := hz c (by simp)
          have ha : 0 ≤ a := hm a (by simp)
          have hrest := ih z (by simpa using hlen) (fun x hx => hz x (by simp [hx]))
            (fun x hx => hm x (by simp [hx]))
          simp only [List.zipWith_cons_cons, hrest, hc]
          rw [max_eq_left ha]

/-- Element-wise max with an all-zero left operand of equal length is the
identity on lists of non-negative values. -/
theorem zipWith_max_zero_left :
    ∀ (z a : List ℚ), z.length = a.length → (∀ x ∈ z, x = 0) →
      (∀ x ∈ a, 0 ≤ x) → List.zipWith max z a = a := by
  intro z
  induction z with
  | nil =>
      intro a hlen _ _
      have ha : a = [] := List.length_eq_zero.mp (by simpa using hlen.symm)
      subst ha
      simp
  | cons c z ih =>
      intro a hlen hz ha
      cases a with
      | nil => simp at hlen
      | cons b a =>
          have hc : c = 0 := hz c (by simp)
          have hb : 0 ≤ b := ha b (by simp)
          have hrest := ih a (by simpa using hlen) (fun x hx => hz x (by simp [hx]))
            (fun x hx => ha x (by simp [hx]))
          simp only [List.zipWith_cons_cons, hrest, hc]
          rw [max_eq_right hb]

/-- C9: for an inpainting request whose source image carries an alpha channel
(values in `[0, 1]`), the effective mask used by the pipeline call equals the
element-wise maximum of the explicit mask (absent ⇒ all-zero) and the
alpha-derived mask; in particular, with no explicit mask the alpha-derived
mask is used alone. -/
theorem inpainting_mask_combination (mask : Option (List ℚ))
    (alphaChannel : List ℚ) (len : ℕ)
    (hmlen : (maskDenote len mask).length = len)
    (hmpos : ∀ x ∈ maskDenote len mask, 0 ≤ x)
    (halen : alphaChannel.length = len)
    (hale : ∀ x ∈ alphaChannel, x ≤ 1) :
    maskDenote len
        (effectiveInpaintingMask mask (some (alphaMaskFromChannel alphaChannel))) =
      elementwiseMax (maskDenote len mask) (alphaMaskFromChannel alphaChannel) := by
  have hAlen : (alphaMaskFromChannel alphaChannel).length = len := by
    simp [alphaMaskFromChannel, halen]
  have hApos : ∀ x ∈ alphaMaskFromChannel alphaChannel, 0 ≤ x := by
    intro x hx
    simp only [alphaMaskFromChannel, List.mem_map] at hx
    obtain ⟨y, hy, rfl⟩ := hx
    have := hale y hy
    linarith
  by_cases hAz : (alphaMaskFromChannel alphaChannel).all (fun x => decide (x = 0))
  · -- fully opaque image: the alpha mask is all-zero and is dropped
    have hAzero : ∀ x ∈ alphaMaskFromChannel alphaChannel, x = 0 := by
      intro x hx
      have := List.all_eq_true.mp hAz x hx
      simpa using this
    have hdropA : dropIfEmpty (some (alphaMaskFromChannel alphaChannel)) = none := by
      simp only [dropIfEmpty]
      rw [if_pos hAz]
    cases mask with
    | none =>
        have hdropM : dropIfEmpty (none : Option (List ℚ)) = none := rfl
        simp only [effectiveInpaintingMask, hdropA, hdropM, maskDenote,
          elementwiseMax]
        rw [zipWith_max_zero_right _ _ (by simp [hAlen]) hAzero (by
          intro x hx
          rw [List.eq_of_mem_replicate hx])]
    | some m =>
        by_cases hmz : m.all (fun x => decide (x = 0))
        · have hmzero : ∀ x ∈ m, x = 0 := by
            intro x hx
            have := List.all_eq_true.mp hmz x hx
            simpa using this
          have hdropM : dropIfEmpty (some m) = none := by
            simp only [dropIfEmpty]
            rw [if_pos hmz]
          simp only [effectiveInpaintingMask, hdropA, hdropM, maskDenote,
            elementwiseMax]
          rw [zipWith_max_zero_right _ _ (by
              simp only [maskDenote] at hmlen
              rw [hmlen, hAlen]) hAzero (fun x hx => le_of_eq (hmzero x hx).symm)]
          rw [List.eq_replicate_iff.mpr ⟨by simpa using hmlen, hmzero⟩]
        · have hdropM : dropIfEmpty (some m) = some m := by
            simp only [dropIfEmpty]
            rw [if_neg hmz]
          simp only [effectiveInpaintingMask, hdropA, hdropM, maskDenote,
            elementwiseMax]
          rw [zipWith_max_zero_right _ _ (by
              simp only [maskDenote] at hmlen
              rw [hmlen, hAlen]) hAzero (by simpa [maskDenote] using hmpos)]
  · -- the alpha mask survives normalization
    have hdropA : dropIfEmpty (some (alphaMaskFromChannel alphaChannel)) =
        some (alphaMaskFromChannel alphaChannel) := by
      simp only [dropIfEmpty]
      rw [if_neg hAz]
    cases mask with
    | none =>
        have hdropM : dropIfEmpty (none : Option (List ℚ)) = none := rfl
        simp only [effectiveInpaintingMask, hdropA, hdropM, maskDenote,
          elementwiseMax]
        rw [zipWith_max_zero_left _ _ (by simp [hAlen]) (by
          intro x hx
          rw [List.eq_of_mem_replicate hx]) hApos]
    | some m =>
        by_cases hmz : m.all (fun x => decide (x = 0))
        · have hmzero : ∀ x ∈ m, x = 0 := by
            intro x hx
            have := List.all_eq_true.mp hmz x hx
            simpa using this
          have hdropM : dropIfEmpty (some m) = none := by
            simp only [dropIfEmpty]
            rw [if_pos hmz]
          simp only [effectiveInpaintingMask, hdropA, hdropM, maskDenote,
            elementwiseMax]
          rw [zipWith_max_zero_left _ _ (by
              simp only [maskDenote] at hmlen
              rw [hmlen, hAlen]) hmzero hApos]
        · have hdropM : dropIfEmpty (some m) = some m := by
            simp only [dropIfEmpty]
            rw [if_neg hmz]
          simp only [effectiveInpaintingMask, hdropA, hdropM, maskDenote,
            elementwiseMax]

/-- Witness for C9: a 2-pixel RGBA image, alpha channel `[1, 0]` (second
pixel fully transparent), explicit mask `[1, 0]`; the effective mask is the
element-wise maximum `[1, 1]`. -/
theorem inpainting_mask_combination_witness :
    maskDenote 2
        (effectiveInpaintingMask (some [1, 0])
          (some (alphaMaskFromChannel [1, 0]))) =
      elementwiseMax (maskDenote 2 (some [1, 0])) (alphaMaskFromChannel [1, 0]) :=
  inpainting_mask_combination (some [1, 0]) [1, 0] 2
    (by decide) (by decide) (by decide) (by decide)

end ImageAiUtils
